import Mathlib

/-!
Verification of the interview-coach session core: the session state machine
(`session_state.py`), the skill coverage tracker (`services/skill_coverage.py`),
the schema validation contract of `FallacyHint` (`models/schemas.py`), the
focus-skill tag backstop of the question generator (`agents/interview_coach.py`),
and the question-order discipline of the orchestration driver (`app.py`).

Python strings are modelled as `String` viewed through its character list;
Python `str.strip` / `str.lower` / `str.split()` are modelled by explicit
character-list functions restricted to ASCII case folding and the four ASCII
whitespace characters, which is what the repository's data uses.  Python
`dict[str, T]` values are modelled as association lists with unique keys,
preserving insertion order exactly as CPython dicts do.  Fallible operations
(Python `raise`) are modelled with `Except String`.
-/

namespace InterviewCoach

/-! ## Character and string primitives -/

/-- Whitespace test used by the model of Python `str.strip` and `str.split()`. -/
def isWs (c : Char) : Bool :=
  c == ' ' || c == '\t' || c == '\n' || c == '\r'

/-- ASCII case folding, the model of Python `str.lower` on the repository's data. -/
def lowerChar (c : Char) : Char :=
  if 65 ≤ c.toNat ∧ c.toNat ≤ 90 then Char.ofNat (c.toNat + 32) else c

/-- Model of Python `str.strip()`: drop whitespace from both ends. -/
def pyStrip (cs : List Char) : List Char :=
  ((cs.dropWhile isWs).reverse.dropWhile isWs).reverse

/-- Chunks of a character list between whitespace characters (empty chunks included). -/
def wsChunks : List Char → List (List Char)
  | [] => [[]]
  | c :: rest =>
    match wsChunks rest with
    | [] => [[c]]
    | t :: ts => if isWs c then [] :: t :: ts else (c :: t) :: ts

/-- Model of Python `str.split()` with no argument: maximal non-whitespace runs. -/
def pySplit (cs : List Char) : List (List Char) :=
  (wsChunks cs).filter (fun t => !t.isEmpty)

/-- Model of Python `" ".join(...)` on a list of tokens. -/
def joinSpace : List (List Char) → List Char
  | [] => []
  | [t] => t
  | t :: ts => t ++ ' ' :: joinSpace ts

/-- Model of `str.strip()` packaged back into a string. -/
def stripStr (s : String) : String :=
  ⟨pyStrip s.data⟩

/-- A string is blank when it strips to the empty string. -/
def isBlank (s : String) : Bool :=
  (pyStrip s.data).isEmpty

/-- `_normalize_token` from `services/skill_coverage.py`:
`" ".join(str(value).strip().lower().split())`. -/
def normalizeToken (s : String) : String :=
  ⟨joinSpace (pySplit ((pyStrip s.data).map lowerChar))⟩

/-- Model of Python `str.strip().lower()` used by the focus-skill tag backstop. -/
def stripLower (s : String) : String :=
  ⟨(pyStrip s.data).map lowerChar⟩

/-! ## Schemas (`models/schemas.py`) -/

/-- The fixed disclaimer string `UNCERTAINTY_DISCLAIMER` from `models/schemas.py`. -/
def UNCERTAINTY_DISCLAIMER : String :=
  "This is probabilistic coaching, not truth."

/-- `CandidateProfile` from `models/schemas.py` (Literal constraints unmodelled:
no claim touches them). -/
structure CandidateProfile where
  full_name : Option String := none
  target_role : Option String := none
  seniority : String := "unknown"
  industries : List String := []
  skills : List String := []
  tools : List String := []
  key_projects : List String := []
  achievements : List String := []
  education : List String := []
  gaps_or_risks : List String := []
  summary : String := ""
  keywords : List String := []
deriving Repr, DecidableEq

/-- `InterviewQuestion` from `models/schemas.py`. -/
structure InterviewQuestion where
  question_text : String
  category : String := "mixed"
  difficulty : String := "medium"
  what_good_looks_like : List String := []
  tags : List String := []
deriving Repr, DecidableEq

/-- `ScoreCard` from `models/schemas.py` (the 0..5 range checks are unmodelled:
no claim touches them). -/
structure ScoreCard where
  correctness : Int
  depth : Int
  structure_score : Int
  communication : Int
  role_relevance : Int
  strengths : List String := []
  improvements : List String := []
  red_flags : List String := []
  suggested_rewrite : Option String := none
  followup_question : String := ""
deriving Repr, DecidableEq

/-- `PossibleFallacy` from `models/schemas.py`; the float confidence is modelled
as a rational. -/
structure PossibleFallacy where
  type : String
  excerpt : String := ""
  short_explanation : String := ""
  confidence : Rat := 0
deriving Repr, DecidableEq

/-- `FallacyHint` from `models/schemas.py` (the plain record; the validating
constructor is `mkFallacyHint`). -/
structure FallacyHint where
  hint_level : String := "none"
  coach_hint_text : String := ""
  possible_fallacies : List PossibleFallacy := []
  more_info_text : String := ""
  suggested_rewrite : Option String := none
deriving Repr, DecidableEq

/-- Substring containment, the model of Python `in` on strings. -/
def containsSub (needle haystack : String) : Bool :=
  decide (needle.data <:+: haystack.data)

/-- The `more_info_text` stage of `FallacyHint` construction: the field
validator `_must_include_uncertainty_disclaimer` runs only when the field is
supplied; an omitted field takes the declared default `""` unvalidated
(pydantic v2 `validate_default=False`). -/
def mkFallacyHintChecked (hl : String) (coach : Option String)
    (pfs : Option (List PossibleFallacy)) (mit : Option String)
    (sr : Option String) : Except String FallacyHint :=
  match mit with
  | none =>
    .ok { hint_level := hl, coach_hint_text := coach.getD "",
          possible_fallacies := pfs.getD [], more_info_text := "",
          suggested_rewrite := sr }
  | some v =>
    if containsSub UNCERTAINTY_DISCLAIMER v then
      .ok { hint_level := hl, coach_hint_text := coach.getD "",
            possible_fallacies := pfs.getD [], more_info_text := v,
            suggested_rewrite := sr }
    else .error "more_info_text must include the uncertainty disclaimer"

/-- Pydantic construction of `FallacyHint`.  Each argument is `none` when the
field is omitted (pydantic then uses the declared default **without** running
field validators, matching pydantic v2's `validate_default=False`).  The
`hint_level` Literal check and the `more_info_text` disclaimer validator run
only on supplied values.  `possible_fallacies` entries arrive already
validated. -/
def mkFallacyHint (hint_level : Option String) (coach_hint_text : Option String)
    (possible_fallacies : Option (List PossibleFallacy))
    (more_info_text : Option String) (suggested_rewrite : Option String) :
    Except String FallacyHint :=
  match hint_level with
  | some hl =>
    if hl = "none" ∨ hl = "light" ∨ hl = "strong" then
      mkFallacyHintChecked hl coach_hint_text possible_fallacies more_info_text
        suggested_rewrite
    else .error "hint_level must be one of none, light, strong"
  | none =>
    mkFallacyHintChecked "none" coach_hint_text possible_fallacies more_info_text
      suggested_rewrite

/-! ## Session state machine (`session_state.py`) -/

/-- One entry of the session transcript, the dict appended by `submit_answer`
and `skip_question`. -/
structure TranscriptEntry where
  question_id : Option Int
  question_order : Option Int
  question : InterviewQuestion
  answer : String
  scorecard : Option ScoreCard
  fallacy_hint : Option FallacyHint
  is_skipped : Bool
deriving Repr, DecidableEq

/-- The session state dict.  Keys that `new_interview_state` does not create
but `reset_interview` reads with `state.get(...)` are modelled as `Option`
fields (`none` = key absent). -/
structure SessionState where
  job_description : String
  prompt_mode : String
  interview_started : Bool
  current_question : Option InterviewQuestion
  current_question_id : Option Int
  current_question_order : Option Int
  last_scorecard : Option ScoreCard
  last_fallacy_hint : Option FallacyHint
  transcript : List TranscriptEntry
  cv_text : Option String
  cv_file_hash : Option String
  profile : Option CandidateProfile
  jd_text : Option String
  jd_file_hash : Option String
  position_title : Option String
  vacancy_id : Option Int
  user_vacancy_id : Option Int
deriving Repr, DecidableEq

/-- `new_interview_state()` from `session_state.py`. -/
def new_interview_state : SessionState where
  job_description := ""
  prompt_mode := "default"
  interview_started := false
  current_question := none
  current_question_id := none
  current_question_order := none
  last_scorecard := none
  last_fallacy_hint := none
  transcript := []
  cv_text := none
  cv_file_hash := none
  profile := none
  jd_text := none
  jd_file_hash := none
  position_title := none
  vacancy_id := none
  user_vacancy_id := none

/-- `start_interview` from `session_state.py`.  The serialized
`model_dump()` round trip is identity in the model; `setdefault("transcript")`
is a no-op because the field always exists. -/
def start_interview (state : SessionState) (first_question : InterviewQuestion)
    (question_id : Option Int) (question_order : Option Int) : SessionState :=
  { state with
    interview_started := true
    current_question := some first_question
    current_question_id := question_id
    current_question_order := question_order
    last_scorecard := none
    last_fallacy_hint := none }

/-- `submit_answer` from `session_state.py`.  Raising `ValueError` is modelled
as `Except.error`; the guard precedes every mutation, so the caller's state is
untouched on error. -/
def submit_answer (state : SessionState) (answer : String) (scorecard : ScoreCard)
    (next_question : Option InterviewQuestion) (fallacy_hint : Option FallacyHint) :
    Except String SessionState :=
  match state.current_question with
  | none => .error "No current question to answer"
  | some question =>
    .ok { state with
      transcript := state.transcript ++
        [{ question_id := state.current_question_id
           question_order := state.current_question_order
           question := question
           answer := answer
           scorecard := some scorecard
           fallacy_hint := fallacy_hint
           is_skipped := false }]
      last_scorecard := some scorecard
      last_fallacy_hint := fallacy_hint
      current_question := next_question
      current_question_id := none
      current_question_order := none }

/-- `skip_question` from `session_state.py`. -/
def skip_question (state : SessionState)
    (next_question : Option InterviewQuestion) : Except String SessionState :=
  match state.current_question with
  | none => .error "No current question to skip"
  | some question =>
    .ok { state with
      transcript := state.transcript ++
        [{ question_id := state.current_question_id
           question_order := state.current_question_order
           question := question
           answer := ""
           scorecard := none
           fallacy_hint := none
           is_skipped := true }]
      last_scorecard := none
      last_fallacy_hint := none
      current_question := next_question
      current_question_id := none
      current_question_order := none }

/-- `reset_interview` from `session_state.py`: write the
`new_interview_state()` defaults, then restore the saved allow-list of
user/profile fields. -/
def reset_interview (state : SessionState) : SessionState :=
  { new_interview_state with
    job_description := state.job_description
    prompt_mode := state.prompt_mode
    cv_text := state.cv_text
    cv_file_hash := state.cv_file_hash
    profile := state.profile
    jd_text := state.jd_text
    jd_file_hash := state.jd_file_hash
    position_title := state.position_title
    vacancy_id := state.vacancy_id
    user_vacancy_id := state.user_vacancy_id }

/-- One call to a `session_state.py` operation, with its arguments. -/
inductive Op where
  | start (q : InterviewQuestion) (qid : Option Int) (qorder : Option Int)
  | submit (answer : String) (sc : ScoreCard) (next : Option InterviewQuestion)
      (hint : Option FallacyHint)
  | skip (next : Option InterviewQuestion)
  | reset
deriving Repr, DecidableEq

/-- Effect of one call on the caller's state: a raised `ValueError` leaves the
state exactly as it was (the guard runs before any mutation). -/
def applyOp (state : SessionState) : Op → SessionState
  | .start q qid qorder => start_interview state q qid qorder
  | .submit answer sc next hint =>
    match submit_answer state answer sc next hint with
    | .ok s2 => s2
    | .error _ => state
  | .skip next =>
    match skip_question state next with
    | .ok s2 => s2
    | .error _ => state
  | .reset => reset_interview state

/-- Run a sequence of calls from a given state. -/
def runOps (ops : List Op) (state : SessionState) : SessionState :=
  ops.foldl applyOp state

/-- `len(transcript) + (1 if current_question else 0)`. -/
def liveLen (state : SessionState) : Nat :=
  state.transcript.length + (if state.current_question.isSome then 1 else 0)

/-- The `question_order` column of the transcript. -/
def ordersOf (state : SessionState) : List (Option Int) :=
  state.transcript.map (fun e => e.question_order)

/-! ## Skill coverage (`services/skill_coverage.py`) -/

/-- `_extract_question_tags_from_turn` restricted to the transcript shape the
session produces: a dict with a `question` sub-dict carrying `tags`; blank
tags are dropped (`if str(t).strip()`). -/
def extractTags (turn : TranscriptEntry) : List String :=
  turn.question.tags.filter (fun t => !isBlank t)

/-- The `normalized_to_skill` insertion loop of `compute_skill_coverage`:
pairs `(canonical key, first-seen stripped skill)` in first-seen order, seen
keys accumulated in `seen`. -/
def buildNormAux : List String → List String → List (String × String)
  | [], _ => []
  | skill :: rest, seen =>
    let skill_str := stripStr skill
    if skill_str = "" then buildNormAux rest seen
    else
      let key := normalizeToken skill_str
      if key = "" ∨ key ∈ seen then buildNormAux rest seen
      else (key, skill_str) :: buildNormAux rest (key :: seen)

/-- The deduplicated canonical-key-to-display map of `compute_skill_coverage`. -/
def buildNorm (top_skills : List String) : List (String × String) :=
  buildNormAux top_skills []

/-- `coverage[skill] += 1` on an association list with `skill` as display key. -/
def incr (cov : List (String × Int)) (skill : String) : List (String × Int) :=
  cov.map (fun p => if p.1 = skill then (p.1, p.2 + 1) else p)

/-- The tag loop of `compute_skill_coverage` over a single turn's tags. -/
def applyTags (nm : List (String × String)) (cov : List (String × Int)) :
    List String → List (String × Int)
  | [] => cov
  | tag :: rest =>
    match nm.lookup (normalizeToken tag) with
    | some skill => applyTags nm (incr cov skill) rest
    | none => applyTags nm cov rest

/-- `compute_skill_coverage` from `services/skill_coverage.py`. -/
def compute_skill_coverage (top_skills : List String)
    (transcript : List TranscriptEntry) : List (String × Int) :=
  let normalized_to_skill := buildNorm top_skills
  let coverage : List (String × Int) :=
    normalized_to_skill.map (fun p => (p.2, (0 : Int)))
  if coverage.isEmpty then []
  else transcript.foldl (fun cov turn => applyTags normalized_to_skill cov (extractTags turn))
    coverage

/-- The `unique_skills` loop of `pick_next_focus_skill`. -/
def dedupSkillsAux : List String → List String → List String
  | [], _ => []
  | skill :: rest, seen =>
    let skill_str := stripStr skill
    if skill_str = "" then dedupSkillsAux rest seen
    else
      let key := normalizeToken skill_str
      if key = "" ∨ key ∈ seen then dedupSkillsAux rest seen
      else skill_str :: dedupSkillsAux rest (key :: seen)

/-- The deduplicated (by canonical key, first occurrence wins) skill list. -/
def dedupSkills (top_skills : List String) : List String :=
  dedupSkillsAux top_skills []

/-- `int(coverage.get(skill, 0))`. -/
def covCount (coverage : List (String × Int)) (skill : String) : Int :=
  (coverage.lookup skill).getD 0

/-- `pick_next_focus_skill` from `services/skill_coverage.py`: minimum count
over the deduplicated skills, first such skill in original order (the final
`return unique_skills[0]` fallback is modelled by `getD`). -/
def pick_next_focus_skill (top_skills : List String)
    (coverage : List (String × Int)) : Option String :=
  match dedupSkills top_skills with
  | [] => none
  | s :: rest =>
    let min_count := (rest.map (covCount coverage)).foldl min (covCount coverage s)
    some (((s :: rest).find? (fun x => covCount coverage x = min_count)).getD s)

/-! ## Focus-skill tag backstop (`agents/interview_coach.py`) -/

/-- The tail of `generate_interview_question`: after the external generator
returns `generated`, if `focus_skill` is set and non-blank and no tag matches
it after strip+lower, append the stripped focus skill to the tags. -/
def enforce_focus_tags (focus_skill : Option String) (tags : List String) :
    List String :=
  match focus_skill with
  | none => tags
  | some fs =>
    if fs = "" ∨ stripStr fs = "" then tags
    else
      let focus_normalized := stripLower fs
      if tags.any (fun t => stripLower t == focus_normalized) then tags
      else tags ++ [stripStr fs]

/-- The `InterviewQuestion` value `generate_interview_question` returns, as a
function of the external generator's output. -/
def generate_interview_question_result (generated : InterviewQuestion)
    (focus_skill : Option String) : InterviewQuestion :=
  { generated with tags := enforce_focus_tags focus_skill generated.tags }

/-! ## Orchestration driver (`app.py`) -/

/-- Python `int(x or d)` on an optional int (`None` and `0` are falsy). -/
def pyOrInt (v : Option Int) (d : Int) : Int :=
  match v with
  | none => d
  | some o => if o = 0 then d else o

/-- One user action as driven by `app.py`: starting seeds
`question_order = len(transcript) + 1`; submitting/skipping computes
`current_question_order` (defaulting to `len(transcript) + 1`), optionally
persists it back before the transition, and afterwards stores the follow-up
question's id and order; the `Next question` branch installs a question
directly with order `len(transcript) + 1`. -/
inductive DOp where
  | start (q : InterviewQuestion) (qid : Option Int)
  | submit (persist : Bool) (nid : Option Int) (answer : String) (sc : ScoreCard)
      (next : Option InterviewQuestion) (hint : Option FallacyHint)
      (nextId : Option Int)
  | skip (persist : Bool) (nid : Option Int) (next : Option InterviewQuestion)
      (nextId : Option Int)
  | next (q : InterviewQuestion) (nid : Option Int)
  | reset
deriving Repr, DecidableEq

/-- The persist-back step of the `app.py` submit/skip branches: when a durable
row is created for a not-yet-persisted current question, its id and computed
order are stored back into the session before the state transition. -/
def persistCurrent (state : SessionState) (persist : Bool) (nid : Option Int)
    (cur_order : Int) : SessionState :=
  if persist && state.current_question_id == none then
    { state with
      current_question_id := nid
      current_question_order := some cur_order }
  else state

/-- Effect of one `app.py` action on the session state (external calls
abstracted by the `DOp` parameters; the submit/skip branches run only when a
question is live, matching the UI guard `if current_question:`). -/
def applyDriver (state : SessionState) : DOp → SessionState
  | .start q qid =>
    start_interview state q qid (some ((state.transcript.length : Int) + 1))
  | .submit persist nid answer sc next hint nextId =>
    match state.current_question with
    | none => state
    | some _ =>
      let cur_order := pyOrInt state.current_question_order
        ((state.transcript.length : Int) + 1)
      let s1 := persistCurrent state persist nid cur_order
      match submit_answer s1 answer sc next hint with
      | .ok s2 =>
        { s2 with
          current_question_id := nextId
          current_question_order := some (cur_order + 1) }
      | .error _ => s1
  | .skip persist nid next nextId =>
    match state.current_question with
    | none => state
    | some _ =>
      let cur_order := pyOrInt state.current_question_order
        ((state.transcript.length : Int) + 1)
      let s1 := persistCurrent state persist nid cur_order
      match skip_question s1 next with
      | .ok s2 =>
        { s2 with
          current_question_id := nextId
          current_question_order := some (cur_order + 1) }
      | .error _ => s1
  | .next q nid =>
    if state.current_question = none ∧ state.interview_started then
      { state with
        current_question := some q
        current_question_id := nid
        current_question_order := some ((state.transcript.length : Int) + 1) }
    else state
  | .reset => reset_interview state

/-- Run a sequence of driver actions from a given state. -/
def runDriver (ops : List DOp) (state : SessionState) : SessionState :=
  ops.foldl applyDriver state

/-! ## Character-level lemmas -/

theorem char_toNat_ofNat (n : Nat) (h : n < 55296) : (Char.ofNat n).toNat = n := by
  have hv : n.isValidChar := Or.inl h
  simp [Char.ofNat, hv, Char.ofNatAux, Char.toNat, UInt32.toNat]

theorem char_toNat_injective {a b : Char} (h : a.toNat = b.toNat) : a = b := by
  apply Char.eq_of_val_eq
  apply UInt32.eq_of_toBitVec_eq
  exact BitVec.eq_of_toNat_eq h

theorem beq_char_eq_toNat (a b : Char) : (a == b) = (a.toNat == b.toNat) := by
  by_cases h : a = b
  · simp [h]
  · have h2 : a.toNat ≠ b.toNat := fun he => h (char_toNat_injective he)
    simp [h, h2]

theorem isWs_lowerChar (c : Char) : isWs (lowerChar c) = isWs c := by
  unfold lowerChar
  split
  · rename_i h
    have ht : (Char.ofNat (c.toNat + 32)).toNat = c.toNat + 32 := by
      apply char_toNat_ofNat
      omega
    have hw : ∀ d : Char, 65 ≤ d.toNat → isWs d = false := by
      intro d hd
      simp only [isWs, beq_char_eq_toNat]
      have h1 : (' ').toNat = 32 := rfl
      have h2 : ('\t').toNat = 9 := rfl
      have h3 : ('\n').toNat = 10 := rfl
      have h4 : ('\r').toNat = 13 := rfl
      simp only [h1, h2, h3, h4, Bool.or_eq_false_iff, beq_eq_false_iff_ne, ne_eq]
      omega
    rw [hw _ (by rw [ht]; omega), hw c (by omega)]
  · rfl

/-! ## Lemmas about the string primitives -/

theorem mem_of_mem_dropWhile {α : Type} {p : α → Bool} {x : α} :
    ∀ {l : List α}, x ∈ l.dropWhile p → x ∈ l
  | [], h => h
  | a :: t, h => by
    rw [List.dropWhile_cons] at h
    split at h
    · exact List.mem_cons_of_mem a (mem_of_mem_dropWhile h)
    · exact h

theorem mem_dropWhile_of_mem {α : Type} {p : α → Bool} {x : α}
    (hpx : p x = false) : ∀ {l : List α}, x ∈ l → x ∈ l.dropWhile p
  | [], h => h
  | a :: t, h => by
    rw [List.dropWhile_cons]
    split
    · rename_i hpa
      rcases List.mem_cons.mp h with he | ht
      · rw [he] at hpx
        rw [hpx] at hpa
        cases hpa
      · exact mem_dropWhile_of_mem hpx ht
    · exact h

theorem dropWhile_head_false {α : Type} {p : α → Bool} :
    ∀ {l : List α} {x : α} {xs : List α}, l.dropWhile p = x :: xs → p x = false
  | [], x, xs, h => by cases h
  | a :: t, x, xs, h => by
    rw [List.dropWhile_cons] at h
    split at h
    · exact dropWhile_head_false h
    · rename_i hpa
      cases h
      exact Bool.of_not_eq_true hpa

theorem mem_pyStrip {c : Char} {cs : List Char} (h : c ∈ cs)
    (hw : isWs c = false) : c ∈ pyStrip cs := by
  unfold pyStrip
  rw [List.mem_reverse]
  apply mem_dropWhile_of_mem hw
  rw [List.mem_reverse]
  exact mem_dropWhile_of_mem hw h

theorem exists_nonWs_of_pyStrip_ne_nil {cs : List Char} (h : pyStrip cs ≠ []) :
    ∃ c ∈ pyStrip cs, isWs c = false := by
  unfold pyStrip at h ⊢
  rcases hx : (cs.dropWhile isWs).reverse.dropWhile isWs with _ | ⟨x, xs⟩
  · rw [hx] at h
    simp at h
  · refine ⟨x, ?_, dropWhile_head_false hx⟩
    simp

theorem wsChunks_ne_nil (cs : List Char) : wsChunks cs ≠ [] := by
  cases cs with
  | nil => simp [wsChunks]
  | cons c rest =>
    unfold wsChunks
    split
    · simp
    · split <;> simp

theorem pySplit_ne_nil {cs : List Char} (h : ∃ c ∈ cs, isWs c = false) :
    pySplit cs ≠ [] := by
  induction cs with
  | nil =>
    rcases h with ⟨c, hc, _⟩
    cases hc
  | cons a rest ih =>
    rcases h with ⟨c, hc, hcw⟩
    unfold pySplit wsChunks
    rcases hrest : wsChunks rest with _ | ⟨t, ts⟩
    · exact absurd hrest (wsChunks_ne_nil rest)
    · by_cases ha : isWs a
      · have hcr : c ∈ rest := by
          rcases List.mem_cons.mp hc with he | hm
          · rw [he] at hcw
            rw [hcw] at ha
            cases ha
          · exact hm
        have := ih ⟨c, hcr, hcw⟩
        unfold pySplit at this
        rw [hrest] at this
        simpa [ha] using this
      · simp [ha, List.filter]

theorem mem_pySplit_ne_nil {t : List Char} {cs : List Char}
    (h : t ∈ pySplit cs) : t ≠ [] := by
  unfold pySplit at h
  have := List.of_mem_filter h
  simpa using this

theorem joinSpace_ne_nil {ts : List (List Char)} (h1 : ts ≠ [])
    (h2 : ∀ t ∈ ts, t ≠ []) : joinSpace ts ≠ [] := by
  match ts with
  | [] => cases h1 rfl
  | [t] =>
    have := h2 t (List.mem_singleton_self t)
    simpa [joinSpace] using this
  | t :: t2 :: rest => simp [joinSpace]

theorem string_mk_eq_empty_iff (l : List Char) : (⟨l⟩ : String) = "" ↔ l = [] := by
  constructor
  · intro h
    have : (⟨l⟩ : String).data = ("" : String).data := by rw [h]
    simpa using this
  · intro h
    rw [h]

theorem stripStr_eq_empty_iff (s : String) : stripStr s = "" ↔ pyStrip s.data = [] :=
  string_mk_eq_empty_iff (pyStrip s.data)

theorem normalizeToken_stripStr_ne_empty {s : String} (h : stripStr s ≠ "") :
    normalizeToken (stripStr s) ≠ "" := by
  have hne : pyStrip s.data ≠ [] := fun he => h ((stripStr_eq_empty_iff s).mpr he)
  rcases exists_nonWs_of_pyStrip_ne_nil hne with ⟨c, hc, hcw⟩
  intro hcontra
  rw [normalizeToken] at hcontra
  have hdata : stripStr s = ⟨pyStrip s.data⟩ := rfl
  rw [string_mk_eq_empty_iff] at hcontra
  have hc2 : c ∈ pyStrip (stripStr s).data := mem_pyStrip hc hcw
  have hc3 : lowerChar c ∈ (pyStrip (stripStr s).data).map lowerChar :=
    List.mem_map_of_mem lowerChar hc2
  have hc4 : isWs (lowerChar c) = false := by rw [isWs_lowerChar]; exact hcw
  have hsplit : pySplit ((pyStrip (stripStr s).data).map lowerChar) ≠ [] :=
    pySplit_ne_nil ⟨lowerChar c, hc3, hc4⟩
  exact joinSpace_ne_nil hsplit
    (fun t ht => mem_pySplit_ne_nil ht) hcontra

/-! ## Lemmas about association-list lookup, fold-min and find? -/

theorem lookup_mem {β : Type} {k : String} {d : β} {l : List (String × β)}
    (h : l.lookup k = some d) : (k, d) ∈ l := by
  rcases List.lookup_eq_some_iff.mp h with ⟨l1, l2, hsplit, _⟩
  rw [hsplit]
  exact List.mem_append.mpr (Or.inr (List.mem_cons_self _ _))

theorem foldl_min_le_init : ∀ (l : List Int) (a : Int), l.foldl min a ≤ a
  | [], a => le_refl a
  | x :: t, a => le_trans (foldl_min_le_init t (min a x)) (min_le_left a x)

theorem foldl_min_le_mem : ∀ (l : List Int) (a : Int) {x : Int}, x ∈ l →
    l.foldl min a ≤ x
  | [], a, x, hx => by cases hx
  | y :: t, a, x, hx => by
    rcases List.mem_cons.mp hx with he | hm
    · subst he
      exact le_trans (foldl_min_le_init t (min a x)) (min_le_right a x)
    · exact foldl_min_le_mem t (min a y) hm

theorem foldl_min_attained : ∀ (l : List Int) (a : Int),
    l.foldl min a = a ∨ l.foldl min a ∈ l
  | [], a => Or.inl rfl
  | y :: t, a => by
    rcases foldl_min_attained t (min a y) with h | h
    · rcases min_choice a y with hm | hm
      · left
        rw [List.foldl_cons, h, hm]
      · right
        rw [List.foldl_cons, h, hm]
        exact List.mem_cons_self y t
    · right
      exact List.mem_cons_of_mem y h

theorem find?_split {α : Type} {p : α → Bool} :
    ∀ {l : List α} {r : α}, l.find? p = some r →
      ∃ pre post, l = pre ++ r :: post ∧ ∀ x ∈ pre, p x = false
  | [], r, h => by cases h
  | a :: t, r, h => by
    rcases hpa : p a with _ | _
    · rw [List.find?_cons_of_neg _ (by simp [hpa])] at h
      rcases find?_split h with ⟨pre, post, hsplit, hpre⟩
      refine ⟨a :: pre, post, by rw [hsplit]; rfl, ?_⟩
      intro x hx
      rcases List.mem_cons.mp hx with he | hm
      · rw [he]
        exact hpa
      · exact hpre x hm
    · rw [List.find?_cons_of_pos _ hpa] at h
      cases h
      exact ⟨[], t, rfl, by simp⟩

/-! ## Lemmas about skill deduplication and focus-skill selection -/

theorem dedupSkillsAux_nil_of_blank :
    ∀ (l : List String) (seen : List String), (∀ s ∈ l, stripStr s = "") →
      dedupSkillsAux l seen = []
  | [], _, _ => rfl
  | a :: rest, seen, h => by
    have ha : stripStr a = "" := h a (List.mem_cons_self a rest)
    unfold dedupSkillsAux
    simp only [ha, if_pos rfl]
    exact dedupSkillsAux_nil_of_blank rest seen
      (fun s hs => h s (List.mem_cons_of_mem a hs))

theorem blank_of_dedupSkillsAux_nil :
    ∀ (l : List String) (seen : List String), dedupSkillsAux l seen = [] →
      ∀ s ∈ l, stripStr s = "" ∨ normalizeToken (stripStr s) ∈ seen
  | [], _, _, s, hs => by cases hs
  | a :: rest, seen, h, s, hs => by
    unfold dedupSkillsAux at h
    by_cases ha : stripStr a = ""
    · simp only [ha, if_pos rfl] at h
      rcases List.mem_cons.mp hs with he | hm
      · left
        rw [he]
        exact ha
      · exact blank_of_dedupSkillsAux_nil rest seen h s hm
    · rw [if_neg ha] at h
      by_cases hk : normalizeToken (stripStr a) = "" ∨ normalizeToken (stripStr a) ∈ seen
      · rcases hk with hk1 | hk2
        · exact absurd hk1 (normalizeToken_stripStr_ne_empty ha)
        · rw [if_pos (Or.inr hk2)] at h
          rcases List.mem_cons.mp hs with he | hm
          · right
            rw [he]
            exact hk2
          · exact blank_of_dedupSkillsAux_nil rest seen h s hm
      · rw [if_neg hk] at h
        cases h

theorem dedupSkills_eq_nil_iff (top_skills : List String) :
    dedupSkills top_skills = [] ↔ ∀ s ∈ top_skills, stripStr s = "" := by
  constructor
  · intro h s hs
    rcases blank_of_dedupSkillsAux_nil top_skills [] h s hs with hb | hmem
    · exact hb
    · cases hmem
  · exact dedupSkillsAux_nil_of_blank top_skills []

theorem dedupSkills_head_eq_find :
    ∀ (l : List String),
      (dedupSkillsAux l []).head? = (l.find? (fun s => !(stripStr s == ""))).map stripStr
  | [] => rfl
  | a :: rest => by
    by_cases ha : stripStr a = ""
    · have hpa : (fun s => !(stripStr s == "")) a = false := by simp [ha]
      rw [List.find?_cons_of_neg _ (by simp [ha])]
      unfold dedupSkillsAux
      simp only [ha, if_pos rfl]
      exact dedupSkills_head_eq_find rest
    · have hkey : normalizeToken (stripStr a) ≠ "" := normalizeToken_stripStr_ne_empty ha
      rw [List.find?_cons_of_pos _ (by simp [ha])]
      unfold dedupSkillsAux
      rw [if_neg ha, if_neg (by simp [hkey])]
      rfl

theorem pick_eq_none_of_dedup_nil {top_skills : List String}
    {coverage : List (String × Int)} (h : dedupSkills top_skills = []) :
    pick_next_focus_skill top_skills coverage = none := by
  unfold pick_next_focus_skill
  rw [h]

theorem pick_cons_spec (coverage : List (String × Int)) (s : String)
    (rest : List String) :
    ∃ r, (((s :: rest).find? (fun x =>
        covCount coverage x = (rest.map (covCount coverage)).foldl min
          (covCount coverage s))).getD s) = r ∧
      r ∈ s :: rest ∧
      (∀ x ∈ s :: rest, covCount coverage r ≤ covCount coverage x) ∧
      ∃ pre post, s :: rest = pre ++ r :: post ∧
        ∀ x ∈ pre, covCount coverage r < covCount coverage x := by
  set cnt := covCount coverage with hcnt
  set m := (rest.map cnt).foldl min (cnt s) with hm
  have hmin_le : ∀ x ∈ s :: rest, m ≤ cnt x := by
    intro x hx
    rcases List.mem_cons.mp hx with he | hmem
    · rw [he, hm]
      exact foldl_min_le_init _ _
    · exact foldl_min_le_mem _ _ (List.mem_map_of_mem cnt hmem)
  have hattained : ∃ x ∈ s :: rest, cnt x = m := by
    rcases foldl_min_attained (rest.map cnt) (cnt s) with h | h
    · exact ⟨s, List.mem_cons_self s rest, h.symm⟩
    · rcases List.mem_map.mp h with ⟨x, hx, hxe⟩
      exact ⟨x, List.mem_cons_of_mem s hx, hxe⟩
  have hfind : ∃ r, (s :: rest).find? (fun x => cnt x = m) = some r := by
    rcases hattained with ⟨x, hx, hxm⟩
    have : ((s :: rest).find? (fun x => cnt x = m)).isSome := by
      rw [List.find?_isSome]
      exact ⟨x, hx, by simp [hxm]⟩
    exact Option.isSome_iff_exists.mp this
  rcases hfind with ⟨r, hr⟩
  refine ⟨r, by rw [hr]; rfl, List.mem_of_find?_eq_some hr, ?_, ?_⟩
  · have hrm : cnt r = m := by
      have := List.find?_some hr
      simpa using this
    intro x hx
    rw [hrm]
    exact hmin_le x hx
  · rcases find?_split hr with ⟨pre, post, hsplit, hpre⟩
    refine ⟨pre, post, hsplit, ?_⟩
    intro x hx
    have hxm : cnt x ≠ m := by
      have := hpre x hx
      simpa using this
    have hxmem : x ∈ s :: rest := by
      rw [hsplit]
      exact List.mem_append.mpr (Or.inl hx)
    have hrm : cnt r = m := by
      have := List.find?_some hr
      simpa using this
    rw [hrm]
    rcases lt_or_eq_of_le (hmin_le x hxmem) with hlt | heq
    · exact hlt
    · exact absurd heq.symm hxm

/-- C4: `pick_next_focus_skill` returns `none` iff `top_skills` has no
non-blank entry; otherwise it returns a member of the deduplicated skill list
with minimal coverage count, the earliest such member in deduplicated order. -/
theorem pick_next_focus_skill_spec (top_skills : List String)
    (coverage : List (String × Int)) :
    (pick_next_focus_skill top_skills coverage = none ↔
      ∀ s ∈ top_skills, stripStr s = "") ∧
    (∀ r, pick_next_focus_skill top_skills coverage = some r →
      r ∈ dedupSkills top_skills ∧
      (∀ x ∈ dedupSkills top_skills, covCount coverage r ≤ covCount coverage x) ∧
      ∃ pre post, dedupSkills top_skills = pre ++ r :: post ∧
        ∀ x ∈ pre, covCount coverage r < covCount coverage x) := by
  rcases hd : dedupSkills top_skills with _ | ⟨s, rest⟩
  · constructor
    · rw [pick_eq_none_of_dedup_nil hd]
      simp only [true_iff]
      exact (dedupSkills_eq_nil_iff top_skills).mp hd
    · intro r hr
      rw [pick_eq_none_of_dedup_nil hd] at hr
      cases hr
  · have hpick : pick_next_focus_skill top_skills coverage =
        some (((s :: rest).find? (fun x =>
          covCount coverage x = (rest.map (covCount coverage)).foldl min
            (covCount coverage s))).getD s) := by
      unfold pick_next_focus_skill
      rw [hd]
    rcases pick_cons_spec coverage s rest with ⟨r0, hr0, hr0mem, hr0min, hr0first⟩
    constructor
    · rw [hpick]
      constructor
      · intro h
        cases h
      · intro hblank
        have := (dedupSkills_eq_nil_iff top_skills).mpr hblank
        rw [hd] at this
        cases this
    · intro r hr
      rw [hpick] at hr
      have hrr : r = r0 := by
        rw [hr0] at hr
        exact (Option.some.injEq _ _ ▸ hr).symm ▸ rfl
      rw [hrr]
      exact ⟨hr0mem, hr0min, hr0first⟩

theorem pick_next_focus_skill_absent (top_skills : List String)
    (coverage : List (String × Int))
    (h : ∀ s ∈ dedupSkills top_skills, coverage.lookup s = none) :
    pick_next_focus_skill top_skills coverage =
      (top_skills.find? (fun s => !(stripStr s == ""))).map stripStr := by
  have hhead : (dedupSkills top_skills).head? =
      (top_skills.find? (fun s => !(stripStr s == ""))).map stripStr :=
    dedupSkills_head_eq_find top_skills
  rcases hd : dedupSkills top_skills with _ | ⟨s, rest⟩
  · rw [pick_eq_none_of_dedup_nil hd]
    rw [hd] at hhead
    exact hhead
  · have hz : ∀ x ∈ s :: rest, covCount coverage x = 0 := by
      intro x hx
      have := h x (by rw [hd]; exact hx)
      simp [covCount, this]
    have hzs : covCount coverage s = 0 := hz s (List.mem_cons_self s rest)
    have hm : (rest.map (covCount coverage)).foldl min (covCount coverage s) = 0 := by
      rcases foldl_min_attained (rest.map (covCount coverage))
          (covCount coverage s) with ha | ha
      · rw [ha, hzs]
      · rcases List.mem_map.mp ha with ⟨x, hx, hxe⟩
        rw [← hxe]
        exact hz x (List.mem_cons_of_mem s hx)
    have hpick : pick_next_focus_skill top_skills coverage =
        some (((s :: rest).find? (fun x =>
          covCount coverage x = (rest.map (covCount coverage)).foldl min
            (covCount coverage s))).getD s) := by
      unfold pick_next_focus_skill
      rw [hd]
    have hm0 : List.foldl min 0 (List.map (covCount coverage) rest) = 0 := by
      have := hm
      rw [hzs] at this
      exact this
    rw [hpick, List.find?_cons_of_pos _ (by simp [hzs, hm0]), Option.getD_some]
    rw [hd] at hhead
    simp only [List.head?_cons] at hhead
    exact hhead

/-- C10: a deduplicated skill absent from the coverage mapping counts as 0, and
when every deduplicated skill is absent (in particular when the coverage
mapping is empty) `pick_next_focus_skill` returns the first non-blank entry of
`top_skills` (in its stripped form, as the code stores deduplicated skills
stripped). -/
theorem pick_next_focus_skill_absent_spec :
    (∀ (coverage : List (String × Int)) (s : String),
      coverage.lookup s = none → covCount coverage s = 0) ∧
    ∀ (top_skills : List String) (coverage : List (String × Int)),
      (∀ s ∈ dedupSkills top_skills, coverage.lookup s = none) →
      pick_next_focus_skill top_skills coverage =
        (top_skills.find? (fun s => !(stripStr s == ""))).map stripStr := by
  constructor
  · intro coverage s h
    simp [covCount, h]
  · exact pick_next_focus_skill_absent

/-! ## Lemmas about the coverage map construction -/

theorem buildNormAux_key :
    ∀ {l seen : List String} {p : String × String}, p ∈ buildNormAux l seen →
      p.1 = normalizeToken p.2 ∧ p.1 ∉ seen
  | [], _, p, h => by cases h
  | a :: rest, seen, p, h => by
    unfold buildNormAux at h
    by_cases ha : stripStr a = ""
    · rw [if_pos ha] at h
      exact buildNormAux_key h
    · rw [if_neg ha] at h
      by_cases hk : normalizeToken (stripStr a) = "" ∨
          normalizeToken (stripStr a) ∈ seen
      · rw [if_pos hk] at h
        exact buildNormAux_key h
      · rw [if_neg hk] at h
        rcases List.mem_cons.mp h with he | hm
        · rw [he]
          exact ⟨rfl, fun hmem => hk (Or.inr hmem)⟩
        · have := buildNormAux_key hm
          exact ⟨this.1, fun hmem => this.2 (List.mem_cons_of_mem _ hmem)⟩

theorem buildNormAux_keys_nodup :
    ∀ (l seen : List String), ((buildNormAux l seen).map Prod.fst).Nodup
  | [], _ => List.nodup_nil
  | a :: rest, seen => by
    unfold buildNormAux
    by_cases ha : stripStr a = ""
    · rw [if_pos ha]
      exact buildNormAux_keys_nodup rest seen
    · rw [if_neg ha]
      by_cases hk : normalizeToken (stripStr a) = "" ∨
          normalizeToken (stripStr a) ∈ seen
      · rw [if_pos hk]
        exact buildNormAux_keys_nodup rest seen
      · rw [if_neg hk]
        rw [List.map_cons, List.nodup_cons]
        refine ⟨?_, buildNormAux_keys_nodup rest _⟩
        intro hmem
        rcases List.mem_map.mp hmem with ⟨p, hp, hpe⟩
        have := (buildNormAux_key hp).2
        rw [hpe] at this
        exact this (List.mem_cons_self _ _)

theorem buildNormAux_mem_display :
    ∀ {l seen : List String} {p : String × String}, p ∈ buildNormAux l seen →
      ∃ s ∈ l, p.2 = stripStr s ∧ p.1 = normalizeToken (stripStr s)
  | [], _, p, h => by cases h
  | a :: rest, seen, p, h => by
    unfold buildNormAux at h
    by_cases ha : stripStr a = ""
    · rw [if_pos ha] at h
      rcases buildNormAux_mem_display h with ⟨s, hs, h2, h1⟩
      exact ⟨s, List.mem_cons_of_mem a hs, h2, h1⟩
    · rw [if_neg ha] at h
      by_cases hk : normalizeToken (stripStr a) = "" ∨
          normalizeToken (stripStr a) ∈ seen
      · rw [if_pos hk] at h
        rcases buildNormAux_mem_display h with ⟨s, hs, h2, h1⟩
        exact ⟨s, List.mem_cons_of_mem a hs, h2, h1⟩
      · rw [if_neg hk] at h
        rcases List.mem_cons.mp h with he | hm
        · rw [he]
          exact ⟨a, List.mem_cons_self a rest, rfl, rfl⟩
        · rcases buildNormAux_mem_display hm with ⟨s, hs, h2, h1⟩
          exact ⟨s, List.mem_cons_of_mem a hs, h2, h1⟩

theorem buildNormAux_key_of_nonblank :
    ∀ {l seen : List String} {s : String}, s ∈ l → stripStr s ≠ "" →
      normalizeToken (stripStr s) ∈ seen ∨
      normalizeToken (stripStr s) ∈ (buildNormAux l seen).map Prod.fst
  | [], _, s, hs, _ => by cases hs
  | a :: rest, seen, s, hs, hsb => by
    unfold buildNormAux
    by_cases ha : stripStr a = ""
    · rw [if_pos ha]
      rcases List.mem_cons.mp hs with he | hm
      · rw [he] at hsb
        exact absurd ha hsb
      · exact buildNormAux_key_of_nonblank hm hsb
    · rw [if_neg ha]
      by_cases hk : normalizeToken (stripStr a) = "" ∨
          normalizeToken (stripStr a) ∈ seen
      · rcases hk with hk1 | hk2
        · exact absurd hk1 (normalizeToken_stripStr_ne_empty ha)
        · rw [if_pos (Or.inr hk2)]
          rcases List.mem_cons.mp hs with he | hm
          · left
            rw [he]
            exact hk2
          · exact buildNormAux_key_of_nonblank hm hsb
      · rw [if_neg hk]
        rcases List.mem_cons.mp hs with he | hm
        · right
          rw [he, List.map_cons]
          exact List.mem_cons_self _ _
        · rcases buildNormAux_key_of_nonblank hm hsb with hseen | hmem
          · rcases List.mem_cons.mp hseen with he2 | hm2
            · right
              rw [List.map_cons, he2]
              exact List.mem_cons_self _ _
            · left
              exact hm2
          · right
            rw [List.map_cons]
            exact List.mem_cons_of_mem _ hmem

theorem incr_map (nm : List (String × String)) (g : String × String → Int)
    (d : String) :
    incr (nm.map fun p => (p.2, g p)) d =
      nm.map fun p => (p.2, if p.2 = d then g p + 1 else g p) := by
  unfold incr
  rw [List.map_map]
  apply List.map_congr_left
  intro p _
  by_cases h : p.2 = d <;> simp [h]

theorem applyTags_closed (nm : List (String × String))
    (hkey : ∀ p ∈ nm, p.1 = normalizeToken p.2)
    (hnodup : (nm.map Prod.fst).Nodup) :
    ∀ (tags : List String) (g : String × String → Int),
    applyTags nm (nm.map fun p => (p.2, g p)) tags =
      nm.map fun p =>
        (p.2, g p + (tags.countP (fun t => normalizeToken t == p.1) : Int))
  | [], g => by
    simp [applyTags]
  | tag :: rest, g => by
    unfold applyTags
    rcases hlk : nm.lookup (normalizeToken tag) with _ | skill
    · have hnone : ∀ p ∈ nm, p.1 ≠ normalizeToken tag := by
        intro p hp
        have := List.lookup_eq_none_iff.mp hlk p hp
        intro he
        rw [he] at this
        simp at this
      show applyTags nm (nm.map fun p => (p.2, g p)) rest =
        nm.map fun p =>
          (p.2, g p + (((tag :: rest).countP (fun t => normalizeToken t == p.1) : Nat) : Int))
      rw [applyTags_closed nm hkey hnodup rest g]
      apply List.map_congr_left
      intro p hp
      have hfalse : (normalizeToken tag == p.1) = false := by
        have := hnone p hp
        simp only [beq_eq_false_iff_ne, ne_eq]
        exact fun h => this h.symm
      rw [List.countP_cons]
      simp [hfalse]
    · have hmem : (normalizeToken tag, skill) ∈ nm := lookup_mem hlk
      show applyTags nm (incr (nm.map fun p => (p.2, g p)) skill) rest =
        nm.map fun p =>
          (p.2, g p + (((tag :: rest).countP (fun t => normalizeToken t == p.1) : Nat) : Int))
      rw [incr_map nm g skill]
      rw [applyTags_closed nm hkey hnodup rest _]
      apply List.map_congr_left
      intro p hp
      have hiff : p.2 = skill ↔ (normalizeToken tag == p.1) = true := by
        constructor
        · intro he
          have h1 : p.1 = normalizeToken p.2 := hkey p hp
          have h2 : normalizeToken tag = normalizeToken skill :=
            hkey (normalizeToken tag, skill) hmem
          rw [he] at h1
          rw [h1, ← h2]
          simp
        · intro he
          have he2 : normalizeToken tag = p.1 := by simpa using he
          have hpe : p = (normalizeToken tag, skill) :=
            List.inj_on_of_nodup_map hnodup hp hmem he2.symm
          rw [hpe]
      rw [List.countP_cons]
      by_cases he : p.2 = skill
      · have hb : (normalizeToken tag == p.1) = true := hiff.mp he
        simp only [he, if_pos rfl, hb, if_true]
        push_cast
        ring_nf
      · have hb : (normalizeToken tag == p.1) = false := by
          rcases Bool.eq_false_or_eq_true (normalizeToken tag == p.1) with hb | hb
          · exact absurd (hiff.mpr hb) he
          · exact hb
        simp [he, hb]

theorem compute_skill_coverage_closed (top_skills : List String)
    (transcript : List TranscriptEntry) :
    compute_skill_coverage top_skills transcript =
      (buildNorm top_skills).map fun p =>
        (p.2, (((transcript.map extractTags).flatten).countP
          (fun t => normalizeToken t == p.1) : Int)) := by
  have hkey : ∀ p ∈ buildNorm top_skills, p.1 = normalizeToken p.2 :=
    fun p hp => (buildNormAux_key hp).1
  have hnodup : ((buildNorm top_skills).map Prod.fst).Nodup :=
    buildNormAux_keys_nodup top_skills []
  have hfold : ∀ (tr : List TranscriptEntry) (g : String × String → Int),
      tr.foldl (fun cov turn => applyTags (buildNorm top_skills) cov (extractTags turn))
        ((buildNorm top_skills).map fun p => (p.2, g p)) =
      (buildNorm top_skills).map fun p =>
        (p.2, g p + (((tr.map extractTags).flatten).countP
          (fun t => normalizeToken t == p.1) : Int)) := by
    intro tr
    induction tr with
    | nil =>
      intro g
      simp
    | cons turn rest ih =>
      intro g
      rw [List.foldl_cons,
        applyTags_closed (buildNorm top_skills) hkey hnodup (extractTags turn) g,
        ih]
      apply List.map_congr_left
      intro p _
      simp only [List.map_cons, List.flatten_cons, List.countP_append]
      push_cast
      ring_nf
  unfold compute_skill_coverage
  rcases hnm : buildNorm top_skills with _ | ⟨q, qs⟩
  · simp
  · have hne : (((q :: qs) : List (String × String)).map
        fun p => (p.2, (0 : Int))).isEmpty = false := by simp
    simp only [hnm] at hfold ⊢
    rw [hne]
    simp only [Bool.false_eq_true, if_false]
    rw [hfold]
    apply List.map_congr_left
    intro p _
    simp

/-- Total number of (non-blank) question tags across all transcript entries. -/
def totalTags (transcript : List TranscriptEntry) : Nat :=
  ((transcript.map extractTags).flatten).length

/-- A one-turn transcript entry whose question carries two given tags, used to
exercise the coverage counter. -/
def twoTagTurn (t1 t2 : String) : TranscriptEntry where
  question_id := none
  question_order := none
  question := { question_text := "q", category := "mixed", difficulty := "medium", what_good_looks_like := [], tags := [t1, t2] }
  answer := ""
  scorecard := none
  fallacy_hint := none
  is_skipped := false

/-- C5 (amended): `compute_skill_coverage` returns exactly one entry per
distinct canonicalized non-blank tracked skill (the empty mapping when
`top_skills` is empty), and every count is between 0 and the total number of
question tags across the transcript (a single turn can contribute more than
one count to the same skill, so the transcript length is not a bound). -/
theorem compute_skill_coverage_bounds (top_skills : List String)
    (transcript : List TranscriptEntry) :
    ((compute_skill_coverage top_skills transcript).map Prod.fst =
      (buildNorm top_skills).map Prod.snd) ∧
    ((buildNorm top_skills).map Prod.fst).Nodup ∧
    (∀ p ∈ buildNorm top_skills, p.1 = normalizeToken p.2) ∧
    (∀ s ∈ top_skills, stripStr s ≠ "" →
      normalizeToken (stripStr s) ∈ (buildNorm top_skills).map Prod.fst) ∧
    (top_skills = [] → compute_skill_coverage top_skills transcript = []) ∧
    (∀ q ∈ compute_skill_coverage top_skills transcript,
      0 ≤ q.2 ∧ q.2 ≤ (totalTags transcript : Int)) := by
  refine ⟨?_, buildNormAux_keys_nodup top_skills [],
    fun p hp => (buildNormAux_key hp).1, ?_, ?_, ?_⟩
  · rw [compute_skill_coverage_closed, List.map_map]
    apply List.map_congr_left
    intro p _
    rfl
  · intro s hs hsb
    rcases buildNormAux_key_of_nonblank hs hsb with hseen | hmem
    · exact absurd hseen (List.not_mem_nil _)
    · exact hmem
  · intro h
    rw [h]
    rfl
  · intro q hq
    rw [compute_skill_coverage_closed] at hq
    rcases List.mem_map.mp hq with ⟨p, _, hpe⟩
    rw [← hpe]
    constructor
    · exact Int.ofNat_nonneg _
    · exact Int.ofNat_le.mpr (List.countP_le_length _)

/-- C5 counterexample: with one tracked skill and a one-turn transcript whose
question carries two tags that both canonicalize to that skill, the count is
2, exceeding the transcript length 1. -/
theorem compute_skill_coverage_count_exceeds_transcript :
    compute_skill_coverage ["Python"] [twoTagTurn "python" "PYTHON"] =
      [("Python", 2)] ∧ ¬((2 : Int) ≤ (1 : Int)) := by
  constructor
  · rfl
  · decide

/-- C6 (amended): the coverage mapping equals, entry by entry, the pair of the
first-seen stripped display form of each tracked skill and the number of
question tags across all transcript turns whose canonicalization equals that
skill's canonical key (each matching tag counts, so one turn can contribute
several counts); the keys are the stripped original skill strings, canonical
only up to the stated canonicalization of their identity. -/
theorem compute_skill_coverage_characterization (top_skills : List String)
    (transcript : List TranscriptEntry) :
    compute_skill_coverage top_skills transcript =
      ((buildNorm top_skills).map fun p =>
        (p.2, (((transcript.map extractTags).flatten).countP
          (fun t => normalizeToken t == p.1) : Int))) ∧
    ∀ p ∈ buildNorm top_skills, p.1 = normalizeToken p.2 ∧
      ∃ s ∈ top_skills, p.2 = stripStr s := by
  refine ⟨compute_skill_coverage_closed top_skills transcript, ?_⟩
  intro p hp
  refine ⟨(buildNormAux_key hp).1, ?_⟩
  rcases buildNormAux_mem_display hp with ⟨s, hs, h2, _⟩
  exact ⟨s, hs, h2⟩

/-- C6 counterexample: the key kept for tracked skill `"SQL"` is `"SQL"`
itself, not the canonical (case-folded) `"sql"`, and a single turn carrying
the two tags `"sql"` and `"SQL"` yields count 2, not the number of matching
turns (1). -/
theorem compute_skill_coverage_key_not_canonical :
    compute_skill_coverage ["SQL"] [twoTagTurn "sql" "SQL"] = [("SQL", 2)] ∧
    normalizeToken "SQL" = "sql" ∧ ("SQL" : String) ≠ "sql" ∧ ¬((2 : Int) = 1) := by
  refine ⟨rfl, rfl, ?_, ?_⟩
  · decide
  · decide

/-! ## Lemmas about the session state machine -/

theorem submit_answer_none {state : SessionState}
    (h : state.current_question = none) (answer : String) (sc : ScoreCard)
    (nq : Option InterviewQuestion) (fh : Option FallacyHint) :
    submit_answer state answer sc nq fh = .error "No current question to answer" := by
  unfold submit_answer
  rw [h]

theorem skip_question_none {state : SessionState}
    (h : state.current_question = none) (nq : Option InterviewQuestion) :
    skip_question state nq = .error "No current question to skip" := by
  unfold skip_question
  rw [h]

theorem submit_answer_ok {state : SessionState} {q : InterviewQuestion}
    (h : state.current_question = some q) (answer : String) (sc : ScoreCard)
    (nq : Option InterviewQuestion) (fh : Option FallacyHint) :
    submit_answer state answer sc nq fh = .ok { state with
      transcript := state.transcript ++
        [{ question_id := state.current_question_id
           question_order := state.current_question_order
           question := q
           answer := answer
           scorecard := some sc
           fallacy_hint := fh
           is_skipped := false }]
      last_scorecard := some sc
      last_fallacy_hint := fh
      current_question := nq
      current_question_id := none
      current_question_order := none } := by
  unfold submit_answer
  rw [h]

theorem skip_question_ok {state : SessionState} {q : InterviewQuestion}
    (h : state.current_question = some q) (nq : Option InterviewQuestion) :
    skip_question state nq = .ok { state with
      transcript := state.transcript ++
        [{ question_id := state.current_question_id
           question_order := state.current_question_order
           question := q
           answer := ""
           scorecard := none
           fallacy_hint := none
           is_skipped := true }]
      last_scorecard := none
      last_fallacy_hint := none
      current_question := nq
      current_question_id := none
      current_question_order := none } := by
  unfold skip_question
  rw [h]

/-- C1: with no live question, `submit_answer` and `skip_question` fail with
the contract error and the caller's state -- in particular the transcript --
is exactly what it was. -/
theorem no_live_question_rejects (state : SessionState) (answer : String)
    (sc : ScoreCard) (nq : Option InterviewQuestion) (fh : Option FallacyHint)
    (h : state.current_question = none) :
    submit_answer state answer sc nq fh = .error "No current question to answer" ∧
    skip_question state nq = .error "No current question to skip" ∧
    applyOp state (Op.submit answer sc nq fh) = state ∧
    applyOp state (Op.skip nq) = state ∧
    (applyOp state (Op.submit answer sc nq fh)).transcript = state.transcript ∧
    (applyOp state (Op.skip nq)).transcript = state.transcript := by
  have h1 := submit_answer_none h answer sc nq fh
  have h2 := skip_question_none h nq
  have h3 : applyOp state (Op.submit answer sc nq fh) = state := by
    simp only [applyOp]
    rw [h1]
  have h4 : applyOp state (Op.skip nq) = state := by
    simp only [applyOp]
    rw [h2]
  exact ⟨h1, h2, h3, h4, by rw [h3], by rw [h4]⟩

/-- Sample question used to instantiate proved theorems at concrete inputs. -/
def sampleQuestion : InterviewQuestion where
  question_text := "Tell me about yourself."

/-- Sample scorecard used to instantiate proved theorems at concrete inputs. -/
def sampleScore : ScoreCard where
  correctness := 3
  depth := 3
  structure_score := 3
  communication := 3
  role_relevance := 3

/-- C1 witness: the fresh state has no live question, so both operations fail
and leave it untouched. -/
theorem no_live_question_rejects_witness :
    submit_answer new_interview_state "a" sampleScore none none =
      .error "No current question to answer" ∧
    skip_question new_interview_state none = .error "No current question to skip" ∧
    applyOp new_interview_state (Op.submit "a" sampleScore none none) =
      new_interview_state ∧
    applyOp new_interview_state (Op.skip none) = new_interview_state ∧
    (applyOp new_interview_state (Op.submit "a" sampleScore none none)).transcript =
      new_interview_state.transcript ∧
    (applyOp new_interview_state (Op.skip none)).transcript =
      new_interview_state.transcript :=
  no_live_question_rejects new_interview_state "a" sampleScore none none rfl

/-- C3: `reset_interview` clears the conversation fields and preserves the
allow-listed candidate/role fields, from any state. -/
theorem reset_interview_spec (state : SessionState) :
    (reset_interview state).transcript = [] ∧
    (reset_interview state).current_question = none ∧
    (reset_interview state).current_question_id = none ∧
    (reset_interview state).interview_started = false ∧
    (reset_interview state).last_scorecard = none ∧
    (reset_interview state).last_fallacy_hint = none ∧
    (reset_interview state).job_description = state.job_description ∧
    (reset_interview state).prompt_mode = state.prompt_mode ∧
    (reset_interview state).cv_text = state.cv_text ∧
    (reset_interview state).cv_file_hash = state.cv_file_hash ∧
    (reset_interview state).profile = state.profile ∧
    (reset_interview state).jd_text = state.jd_text ∧
    (reset_interview state).jd_file_hash = state.jd_file_hash ∧
    (reset_interview state).position_title = state.position_title ∧
    (reset_interview state).vacancy_id = state.vacancy_id ∧
    (reset_interview state).user_vacancy_id = state.user_vacancy_id :=
  ⟨rfl, rfl, rfl, rfl, rfl, rfl, rfl, rfl, rfl, rfl, rfl, rfl, rfl, rfl, rfl, rfl⟩

/-- A question id is never recorded without a live question. -/
def IdImpliesLive (state : SessionState) : Prop :=
  ¬(state.current_question_id ≠ none ∧ state.current_question = none)

theorem idImpliesLive_applyOp (state : SessionState) (op : Op)
    (h : IdImpliesLive state) : IdImpliesLive (applyOp state op) := by
  rcases op with ⟨q, qid, qorder⟩ | ⟨answer, sc, next, hint⟩ | next | _
  · simp [IdImpliesLive, applyOp, start_interview]
  · rcases hcq : state.current_question with _ | q
    · simp only [applyOp]
      rw [submit_answer_none hcq]
      exact h
    · simp only [applyOp]
      rw [submit_answer_ok hcq]
      simp [IdImpliesLive]
  · rcases hcq : state.current_question with _ | q
    · simp only [applyOp]
      rw [skip_question_none hcq]
      exact h
    · simp only [applyOp]
      rw [skip_question_ok hcq]
      simp [IdImpliesLive]
  · simp [IdImpliesLive, applyOp, reset_interview, new_interview_state]

theorem idImpliesLive_runOps :
    ∀ (ops : List Op) (state : SessionState), IdImpliesLive state →
      IdImpliesLive (runOps ops state)
  | [], _, h => h
  | op :: rest, state, h =>
    idImpliesLive_runOps rest (applyOp state op) (idImpliesLive_applyOp state op h)

/-- C7: every reachable session state satisfies the implication (a stored
question id entails a live question), and each operation preserves it. -/
theorem current_question_id_implies_live :
    (∀ (state : SessionState) (op : Op), IdImpliesLive state →
      IdImpliesLive (applyOp state op)) ∧
    (∀ ops : List Op, IdImpliesLive (runOps ops new_interview_state)) := by
  constructor
  · exact idImpliesLive_applyOp
  · intro ops
    apply idImpliesLive_runOps
    simp [IdImpliesLive, new_interview_state]

/-- C7 witness: the preservation conjunct applied to the fresh state and a
concrete start action. -/
theorem current_question_id_implies_live_witness :
    IdImpliesLive (applyOp new_interview_state (Op.start sampleQuestion none none)) :=
  current_question_id_implies_live.1 new_interview_state
    (Op.start sampleQuestion none none)
    (by simp [IdImpliesLive, new_interview_state])

theorem liveLen_applyOp (state : SessionState) (op : Op) (h : op ≠ Op.reset) :
    liveLen state ≤ liveLen (applyOp state op) := by
  rcases op with ⟨q, qid, qorder⟩ | ⟨answer, sc, next, hint⟩ | next | _
  · rcases hcq : state.current_question with _ | q0 <;>
      simp [liveLen, applyOp, start_interview, hcq]
  · rcases hcq : state.current_question with _ | q0
    · simp only [applyOp]
      rw [submit_answer_none hcq]
    · simp only [applyOp]
      rw [submit_answer_ok hcq]
      rcases next with _ | q1 <;> simp [liveLen, hcq]
  · rcases hcq : state.current_question with _ | q0
    · simp only [applyOp]
      rw [skip_question_none hcq]
    · simp only [applyOp]
      rw [skip_question_ok hcq]
      rcases next with _ | q1 <;> simp [liveLen, hcq]
  · exact absurd rfl h

theorem ordersOf_submit_ok (state : SessionState) (answer : String)
    (sc : ScoreCard) (nq : Option InterviewQuestion) (fh : Option FallacyHint)
    (s2 : SessionState) (h : submit_answer state answer sc nq fh = .ok s2) :
    ordersOf s2 = ordersOf state ++ [state.current_question_order] := by
  rcases hcq : state.current_question with _ | q0
  · rw [submit_answer_none hcq] at h
    cases h
  · rw [submit_answer_ok hcq] at h
    injection h with h2
    rw [← h2]
    simp [ordersOf]

theorem ordersOf_skip_ok (state : SessionState) (nq : Option InterviewQuestion)
    (s2 : SessionState) (h : skip_question state nq = .ok s2) :
    ordersOf s2 = ordersOf state ++ [state.current_question_order] := by
  rcases hcq : state.current_question with _ | q0
  · rw [skip_question_none hcq] at h
    cases h
  · rw [skip_question_ok hcq] at h
    injection h with h2
    rw [← h2]
    simp [ordersOf]

theorem range'_map_concat (L : Nat) :
    (List.range' 1 (L + 1)).map (fun n : Nat => (some (n : Int) : Option Int)) =
      (List.range' 1 L).map (fun n : Nat => (some (n : Int) : Option Int)) ++
        [(some ((L + 1 : Nat) : Int) : Option Int)] := by
  rw [List.range'_concat, List.map_append]
  simp [Nat.add_comm]

/-- Invariant maintained by the `app.py` driver: recorded orders are exactly
`1..len(transcript)`, and the pending `current_question_order` is absent or
`len(transcript) + 1` (always the latter while a question is live). -/
def DriverInv (state : SessionState) : Prop :=
  ordersOf state =
    (List.range' 1 state.transcript.length).map (fun n : Nat => (some (n : Int) : Option Int)) ∧
  (state.current_question_order = none ∨
    state.current_question_order = some ((state.transcript.length : Int) + 1)) ∧
  (state.current_question.isSome →
    state.current_question_order = some ((state.transcript.length : Int) + 1))

theorem driverInv_new : DriverInv new_interview_state := by
  refine ⟨rfl, Or.inl rfl, ?_⟩
  intro h
  simp [new_interview_state] at h

theorem persistCurrent_cq (state : SessionState) (persist : Bool)
    (nid : Option Int) (cur_order : Int) :
    (persistCurrent state persist nid cur_order).current_question =
      state.current_question := by
  unfold persistCurrent
  split <;> rfl

theorem persistCurrent_tr (state : SessionState) (persist : Bool)
    (nid : Option Int) (cur_order : Int) :
    (persistCurrent state persist nid cur_order).transcript = state.transcript := by
  unfold persistCurrent
  split <;> rfl

theorem persistCurrent_ord {state : SessionState} {cur_order : Int}
    (persist : Bool) (nid : Option Int)
    (h : state.current_question_order = some cur_order) :
    (persistCurrent state persist nid cur_order).current_question_order =
      some cur_order := by
  unfold persistCurrent
  split
  · rfl
  · exact h

theorem driverInv_applyDriver (state : SessionState) (d : DOp)
    (h : DriverInv state) : DriverInv (applyDriver state d) := by
  obtain ⟨h1, h2, h3⟩ := h
  rcases d with ⟨q, qid⟩ | ⟨persist, nid, answer, sc, next, hint, nextId⟩ |
    ⟨persist, nid, next, nextId⟩ | ⟨q, nid⟩ | _
  · exact ⟨h1, Or.inr rfl, fun _ => rfl⟩
  · rcases hcq : state.current_question with _ | q0
    · simp only [applyDriver, hcq]
      exact ⟨h1, h2, h3⟩
    · have hord : state.current_question_order =
          some ((state.transcript.length : Int) + 1) := h3 (by rw [hcq]; rfl)
      have hcur : pyOrInt state.current_question_order
          ((state.transcript.length : Int) + 1) =
          (state.transcript.length : Int) + 1 := by
        rw [hord]
        simp only [pyOrInt]
        have hne0 : ¬((state.transcript.length : Int) + 1 = 0) := by
          omega
        rw [if_neg hne0]
      simp only [applyDriver, hcq]
      rw [hcur]
      have hs1cq : (persistCurrent state persist nid
          ((state.transcript.length : Int) + 1)).current_question = some q0 := by
        rw [persistCurrent_cq]
        exact hcq
      have hs1tr : (persistCurrent state persist nid
          ((state.transcript.length : Int) + 1)).transcript = state.transcript :=
        persistCurrent_tr state persist nid _
      have hs1ord : (persistCurrent state persist nid
          ((state.transcript.length : Int) + 1)).current_question_order =
          some ((state.transcript.length : Int) + 1) :=
        persistCurrent_ord persist nid hord
      cases hsub : submit_answer (persistCurrent state persist nid
          ((state.transcript.length : Int) + 1)) answer sc next hint with
      | error e =>
        rw [submit_answer_ok hs1cq] at hsub
        cases hsub
      | ok s2 =>
        rw [submit_answer_ok hs1cq] at hsub
        injection hsub with hs2
        refine ⟨?_, Or.inr ?_, fun _ => ?_⟩
        · show ordersOf ({ s2 with
            current_question_id := nextId
            current_question_order := some ((state.transcript.length : Int) + 1 + 1) }) = _
          unfold ordersOf
          rw [← hs2]
          simp only [List.map_append, List.length_append, List.map_cons,
            List.map_nil, List.length_cons, List.length_nil]
          rw [hs1tr, hs1ord]
          have h1x : (state.transcript.map fun e => e.question_order) =
              (List.range' 1 state.transcript.length).map
                (fun n : Nat => (some (n : Int) : Option Int)) := h1
          rw [h1x]
          exact (range'_map_concat state.transcript.length).symm
        · show some ((state.transcript.length : Int) + 1 + 1) = _
          rw [← hs2]
          simp only [List.length_append, List.length_cons, List.length_nil]
          rw [hs1tr]
          congr 1
        · show some ((state.transcript.length : Int) + 1 + 1) = _
          rw [← hs2]
          simp only [List.length_append, List.length_cons, List.length_nil]
          rw [hs1tr]
          congr 1
  · rcases hcq : state.current_question with _ | q0
    · simp only [applyDriver, hcq]
      exact ⟨h1, h2, h3⟩
    · have hord : state.current_question_order =
          some ((state.transcript.length : Int) + 1) := h3 (by rw [hcq]; rfl)
      have hcur : pyOrInt state.current_question_order
          ((state.transcript.length : Int) + 1) =
          (state.transcript.length : Int) + 1 := by
        rw [hord]
        simp only [pyOrInt]
        have hne0 : ¬((state.transcript.length : Int) + 1 = 0) := by
          omega
        rw [if_neg hne0]
      simp only [applyDriver, hcq]
      rw [hcur]
      have hs1cq : (persistCurrent state persist nid
          ((state.transcript.length : Int) + 1)).current_question = some q0 := by
        rw [persistCurrent_cq]
        exact hcq
      have hs1tr : (persistCurrent state persist nid
          ((state.transcript.length : Int) + 1)).transcript = state.transcript :=
        persistCurrent_tr state persist nid _
      have hs1ord : (persistCurrent state persist nid
          ((state.transcript.length : Int) + 1)).current_question_order =
          some ((state.transcript.length : Int) + 1) :=
        persistCurrent_ord persist nid hord
      cases hsub : skip_question (persistCurrent state persist nid
          ((state.transcript.length : Int) + 1)) next with
      | error e =>
        rw [skip_question_ok hs1cq] at hsub
        cases hsub
      | ok s2 =>
        rw [skip_question_ok hs1cq] at hsub
        injection hsub with hs2
        refine ⟨?_, Or.inr ?_, fun _ => ?_⟩
        · show ordersOf ({ s2 with
            current_question_id := nextId
            current_question_order := some ((state.transcript.length : Int) + 1 + 1) }) = _
          unfold ordersOf
          rw [← hs2]
          simp only [List.map_append, List.length_append, List.map_cons,
            List.map_nil, List.length_cons, List.length_nil]
          rw [hs1tr, hs1ord]
          have h1x : (state.transcript.map fun e => e.question_order) =
              (List.range' 1 state.transcript.length).map
                (fun n : Nat => (some (n : Int) : Option Int)) := h1
          rw [h1x]
          exact (range'_map_concat state.transcript.length).symm
        · show some ((state.transcript.length : Int) + 1 + 1) = _
          rw [← hs2]
          simp only [List.length_append, List.length_cons, List.length_nil]
          rw [hs1tr]
          congr 1
        · show some ((state.transcript.length : Int) + 1 + 1) = _
          rw [← hs2]
          simp only [List.length_append, List.length_cons, List.length_nil]
          rw [hs1tr]
          congr 1
  · simp only [applyDriver]
    split
    · exact ⟨h1, Or.inr rfl, fun _ => rfl⟩
    · exact ⟨h1, h2, h3⟩
  · refine ⟨rfl, Or.inl rfl, ?_⟩
    intro hl
    simp [applyDriver, reset_interview, new_interview_state] at hl

theorem driverInv_runDriver :
    ∀ (ds : List DOp) (state : SessionState), DriverInv state →
      DriverInv (runDriver ds state)
  | [], _, h => h
  | d :: rest, state, h =>
    driverInv_runDriver rest (applyDriver state d) (driverInv_applyDriver state d h)

/-- Session state after starting with no supplied question order and then
submitting one answer, exercising the bare state machine with arbitrary
arguments. -/
def bareRun : SessionState :=
  runOps [Op.start sampleQuestion none none,
    Op.submit "a" sampleScore none none] new_interview_state

/-- C2 counterexample: with arbitrary arguments the recorded `question_order`
values are whatever was seeded, not `1..len(transcript)` -- here the single
transcript entry records `none` instead of `1`. -/
theorem question_order_claim_counterexample :
    ordersOf bareRun = [none] ∧ bareRun.transcript.length = 1 ∧
    (List.range' 1 bareRun.transcript.length).map
      (fun n : Nat => (some (n : Int) : Option Int)) = [some 1] ∧
    ordersOf bareRun ≠ (List.range' 1 bareRun.transcript.length).map
      (fun n : Nat => (some (n : Int) : Option Int)) := by
  refine ⟨rfl, rfl, rfl, ?_⟩
  intro h
  cases h

/-- C2 (amended): `len(transcript) + (1 if current_question else 0)` never
decreases under `start_interview`/`submit_answer`/`skip_question` with
arbitrary arguments; each recorded turn stores the `current_question_order` in
effect when it was appended (which the bare operations reset to `None`
afterwards); and under the `app.py` driver discipline -- which seeds
`question_order = len(transcript) + 1` at start and restores
`current_question_order` after every turn -- the recorded orders are exactly
`1..len(transcript)` in order. -/
theorem transcript_growth_and_question_order :
    (∀ (state : SessionState) (op : Op), op ≠ Op.reset →
      liveLen state ≤ liveLen (applyOp state op)) ∧
    (∀ (state : SessionState) (answer : String) (sc : ScoreCard)
      (nq : Option InterviewQuestion) (fh : Option FallacyHint)
      (s2 : SessionState), submit_answer state answer sc nq fh = .ok s2 →
      ordersOf s2 = ordersOf state ++ [state.current_question_order]) ∧
    (∀ (state : SessionState) (nq : Option InterviewQuestion)
      (s2 : SessionState), skip_question state nq = .ok s2 →
      ordersOf s2 = ordersOf state ++ [state.current_question_order]) ∧
    (∀ ds : List DOp, ordersOf (runDriver ds new_interview_state) =
      (List.range' 1 (runDriver ds new_interview_state).transcript.length).map
        (fun n : Nat => (some (n : Int) : Option Int))) :=
  ⟨liveLen_applyOp, ordersOf_submit_ok, ordersOf_skip_ok,
    fun ds => (driverInv_runDriver ds new_interview_state driverInv_new).1⟩

/-- C2 (amended) witness: monotonicity applied to the fresh state and a
concrete start action. -/
theorem transcript_growth_and_question_order_witness :
    liveLen new_interview_state ≤
      liveLen (applyOp new_interview_state (Op.start sampleQuestion none none)) :=
  transcript_growth_and_question_order.1 new_interview_state
    (Op.start sampleQuestion none none) (fun h => Op.noConfusion h)

/-! ## FallacyHint validation (C8) -/

theorem mkFallacyHintChecked_some (hl : String) (coach : Option String)
    (pfs : Option (List PossibleFallacy)) (mit : String) (sr : Option String) :
    (∀ h, mkFallacyHintChecked hl coach pfs (some mit) sr = .ok h →
      containsSub UNCERTAINTY_DISCLAIMER h.more_info_text = true) ∧
    (containsSub UNCERTAINTY_DISCLAIMER mit = false →
      ∃ e, mkFallacyHintChecked hl coach pfs (some mit) sr = .error e) := by
  constructor
  · intro h hok
    simp only [mkFallacyHintChecked] at hok
    cases hb : containsSub UNCERTAINTY_DISCLAIMER mit with
    | false =>
      rw [hb] at hok
      simp at hok
    | true =>
      rw [hb] at hok
      simp at hok
      rw [← hok]
      exact hb
  · intro hfalse
    simp only [mkFallacyHintChecked, hfalse, Bool.false_eq_true, if_false]
    exact ⟨_, rfl⟩

/-- C8 (amended): whenever `more_info_text` is explicitly supplied,
construction succeeds only if the supplied text contains the fixed
uncertainty disclaimer, and fails with a validation error otherwise; an
omitted `more_info_text` takes the default `""` without validation. -/
theorem fallacy_hint_disclaimer_enforced (hint_level : Option String)
    (coach : Option String) (pfs : Option (List PossibleFallacy))
    (mit : String) (sr : Option String) :
    (∀ h, mkFallacyHint hint_level coach pfs (some mit) sr = .ok h →
      containsSub UNCERTAINTY_DISCLAIMER h.more_info_text = true) ∧
    (containsSub UNCERTAINTY_DISCLAIMER mit = false →
      ∃ e, mkFallacyHint hint_level coach pfs (some mit) sr = .error e) := by
  cases hint_level with
  | none =>
    simp only [mkFallacyHint]
    exact mkFallacyHintChecked_some "none" coach pfs mit sr
  | some hl =>
    simp only [mkFallacyHint]
    by_cases hv : hl = "none" ∨ hl = "light" ∨ hl = "strong"
    · rw [if_pos hv]
      exact mkFallacyHintChecked_some hl coach pfs mit sr
    · rw [if_neg hv]
      constructor
      · intro h hok
        cases hok
      · intro _
        exact ⟨_, rfl⟩

/-- C8 (amended) witness: supplying exactly the disclaimer text succeeds and
the constructed value contains it. -/
theorem fallacy_hint_disclaimer_enforced_witness :
    containsSub UNCERTAINTY_DISCLAIMER
      (({ more_info_text := UNCERTAINTY_DISCLAIMER } : FallacyHint)).more_info_text
      = true :=
  (fallacy_hint_disclaimer_enforced none none none UNCERTAINTY_DISCLAIMER none).1
    { more_info_text := UNCERTAINTY_DISCLAIMER } (by rfl)

/-- C8 counterexample: constructing a `FallacyHint` with every field omitted
succeeds (pydantic does not validate defaults), yet the resulting
`more_info_text` is the empty string, which does not contain the disclaimer. -/
theorem fallacy_hint_default_bypasses_validation :
    mkFallacyHint none none none none none =
      Except.ok ({} : FallacyHint) ∧
    containsSub UNCERTAINTY_DISCLAIMER (({} : FallacyHint)).more_info_text = false := by
  constructor
  · rfl
  · decide

/-! ## Idempotence of stripping, and the focus-skill backstop (C9) -/

theorem dropWhile_idem {α : Type} (p : α → Bool) (l : List α) :
    (l.dropWhile p).dropWhile p = l.dropWhile p := by
  cases h : l.dropWhile p with
  | nil => rfl
  | cons x xs =>
    rw [List.dropWhile_cons]
    simp [dropWhile_head_false h]

theorem dropWhile_length_le {α : Type} (p : α → Bool) :
    ∀ l : List α, (l.dropWhile p).length ≤ l.length
  | [] => le_refl _
  | a :: t => by
    rw [List.dropWhile_cons]
    split
    · exact le_trans (dropWhile_length_le p t) (Nat.le_succ _)
    · exact le_refl _

theorem dropWhile_suffix {α : Type} (p : α → Bool) :
    ∀ l : List α, l.dropWhile p <:+ l
  | [] => List.suffix_refl _
  | a :: t => by
    rw [List.dropWhile_cons]
    split
    · exact (dropWhile_suffix p t).trans (List.suffix_cons a t)
    · exact List.suffix_refl _

theorem head_false_of_dropWhile_self {α : Type} {p : α → Bool} {a : α}
    {t : List α} (h : (a :: t).dropWhile p = a :: t) : p a = false := by
  cases hb : p a with
  | false => rfl
  | true =>
    rw [List.dropWhile_cons, if_pos hb] at h
    have hlen := congrArg List.length h
    have hle := dropWhile_length_le p t
    simp at hlen
    omega

theorem trimLeft_keep {y : List Char} (h : y.dropWhile isWs = y) :
    ((y.reverse.dropWhile isWs).reverse).dropWhile isWs =
      (y.reverse.dropWhile isWs).reverse := by
  have hpre : ((y.reverse.dropWhile isWs).reverse) <+: y := by
    rw [← List.reverse_suffix, List.reverse_reverse]
    exact dropWhile_suffix isWs y.reverse
  cases hE : (y.reverse.dropWhile isWs).reverse with
  | nil => rfl
  | cons e es =>
    cases y with
    | nil => simp at hE
    | cons a t =>
      have hpa : isWs a = false := head_false_of_dropWhile_self h
      rw [hE] at hpre
      have he : e = a := (List.cons_prefix_cons.mp hpre).1
      rw [List.dropWhile_cons, he, hpa]
      simp

theorem pyStrip_idem (cs : List Char) : pyStrip (pyStrip cs) = pyStrip cs := by
  unfold pyStrip
  rw [trimLeft_keep (dropWhile_idem isWs cs), List.reverse_reverse,
    dropWhile_idem isWs (cs.dropWhile isWs).reverse]

theorem stripLower_stripStr (fs : String) :
    stripLower (stripStr fs) = stripLower fs := by
  show String.mk ((pyStrip (pyStrip fs.data)).map lowerChar) = _
  rw [pyStrip_idem]
  rfl

theorem stripStr_empty : stripStr "" = "" := rfl

/-- C9: for a non-blank focus skill the question returned by
`generate_interview_question` carries a tag matching the focus skill under
strip+lower; if the generator already produced such a tag the tags are left
unchanged, otherwise the stripped focus skill is appended exactly once. -/
theorem focus_skill_tag_backstop (generated : InterviewQuestion) (fs : String)
    (h : stripStr fs ≠ "") :
    ((generate_interview_question_result generated (some fs)).tags =
        generated.tags ∨
      (generate_interview_question_result generated (some fs)).tags =
        generated.tags ++ [stripStr fs]) ∧
    (∃ t ∈ (generate_interview_question_result generated (some fs)).tags,
      stripLower t = stripLower fs) ∧
    ((generated.tags.any fun t => stripLower t == stripLower fs) = true →
      (generate_interview_question_result generated (some fs)).tags =
        generated.tags) ∧
    ((generated.tags.any fun t => stripLower t == stripLower fs) = false →
      (generate_interview_question_result generated (some fs)).tags =
        generated.tags ++ [stripStr fs]) := by
  have hguard : ¬(fs = "" ∨ stripStr fs = "") := by
    rintro (rfl | hb)
    · exact h stripStr_empty
    · exact h hb
  have htags : (generate_interview_question_result generated (some fs)).tags =
      enforce_focus_tags (some fs) generated.tags := rfl
  rw [htags]
  simp only [enforce_focus_tags]
  rw [if_neg hguard]
  cases hany : generated.tags.any (fun t => stripLower t == stripLower fs) with
  | true =>
    have hred : (if (true : Bool) = true then generated.tags
        else generated.tags ++ [stripStr fs]) = generated.tags := if_pos rfl
    rw [hred]
    refine ⟨Or.inl rfl, ?_, fun _ => rfl, fun hcontra => by simp at hcontra⟩
    rcases List.any_eq_true.mp hany with ⟨t, ht, hbeq⟩
    exact ⟨t, ht, by simpa using hbeq⟩
  | false =>
    have hred : (if (false : Bool) = true then generated.tags
        else generated.tags ++ [stripStr fs]) = generated.tags ++ [stripStr fs] :=
      if_neg (by simp)
    rw [hred]
    refine ⟨Or.inr rfl, ?_, fun hcontra => by simp at hcontra, fun _ => rfl⟩
    refine ⟨stripStr fs, ?_, stripLower_stripStr fs⟩
    exact List.mem_append.mpr (Or.inr (List.mem_cons_self _ _))

/-- C9 witness: focus skill `"SQL"` with a generator output lacking it gets
the stripped focus skill appended, so a matching tag is present. -/
theorem focus_skill_tag_backstop_witness :
    ∃ t ∈ (generate_interview_question_result sampleQuestion (some "SQL")).tags,
      stripLower t = stripLower "SQL" :=
  (focus_skill_tag_backstop sampleQuestion "SQL" (by decide)).2.1

/-- C4 witness: with `Python` already covered once, the selector returns
`SQL`, a member of the deduplicated list with minimal count and earliest
position among minima. -/
theorem pick_next_focus_skill_spec_witness :
    "SQL" ∈ dedupSkills ["Python", "SQL"] ∧
    (∀ x ∈ dedupSkills ["Python", "SQL"],
      covCount [("Python", 1)] "SQL" ≤ covCount [("Python", 1)] x) ∧
    ∃ pre post, dedupSkills ["Python", "SQL"] = pre ++ "SQL" :: post ∧
      ∀ x ∈ pre, covCount [("Python", 1)] "SQL" < covCount [("Python", 1)] x :=
  (pick_next_focus_skill_spec ["Python", "SQL"] [("Python", 1)]).2 "SQL" rfl

/-- C5 witness: a non-blank tracked skill's canonical key appears among the
coverage keys. -/
theorem compute_skill_coverage_bounds_witness :
    normalizeToken (stripStr " Python ") ∈
      (buildNorm [" Python ", "SQL"]).map Prod.fst :=
  (compute_skill_coverage_bounds [" Python ", "SQL"] []).2.2.2.1 " Python "
    (by simp) (by decide)

/-- C6 witness: the entry kept for tracked skill `"Python"` pairs canonical
key `"python"` with the stripped original display string. -/
theorem compute_skill_coverage_characterization_witness :
    ("python", "Python").1 = normalizeToken ("python", "Python").2 ∧
    ∃ s ∈ ["Python"], ("python", "Python").2 = stripStr s :=
  (compute_skill_coverage_characterization ["Python"] []).2 ("python", "Python")
    (by decide)

/-- C10 witness: with an empty coverage mapping the selector returns the first
non-blank skill (its stripped form). -/
theorem pick_next_focus_skill_absent_spec_witness :
    pick_next_focus_skill ["", " Python ", "SQL"] [] =
      ((["", " Python ", "SQL"].find? fun s => !(stripStr s == "")).map stripStr) :=
  pick_next_focus_skill_absent_spec.2 ["", " Python ", "SQL"] []
    (fun _ _ => rfl)

end InterviewCoach
